import Mathlib

set_option maxHeartbeats 1600000

/-!
Shallow embedding of the event, deferred-event and timer subsystems of the
playgroundjs-plugin runtime host, translated from
src/playground/bindings/global_scope.cc, global_callbacks.cc and
utilities.h.  Listener handles (v8 function objects) are represented by
natural numbers, event type names by strings, and the Arguments bag attached
to a deferred event by an opaque natural token.
-/

namespace Playground

/-- A v8 value at the native bridge boundary, as the callbacks in
global_callbacks.cc discriminate them with IsString / IsFunction / IsNumber:
a string, a function handle, a number, an event object carrying its
defaultPrevented flag, or null. An absent argument reads as vnull
(undefined). -/
inductive JSVal where
  | vstr : String → JSVal
  | vfun : Nat → JSVal
  | vnum : Int → JSVal
  | vobj : Bool → JSVal
  | vnull : JSVal
deriving DecidableEq

/-- The v8 IsString check on a bridge argument. -/
def JSVal.isStr : JSVal → Bool
  | .vstr _ => true
  | _ => false

/-- The v8 IsFunction check on a bridge argument. -/
def JSVal.isFun : JSVal → Bool
  | .vfun _ => true
  | _ => false

/-- Event::DefaultPrevented of a payload value: the flag of an event object,
false for anything else (in particular for the null payload that
DispatchEventCallback substitutes when no second argument is given). -/
def payloadFlag : JSVal → Bool
  | .vobj b => b
  | _ => false

/-- The per-type listener registry event_listeners_ of GlobalScope: an
unordered_map from event type name to the ordered vector of registered
listener handles, modelled as an association list whose keys are distinct. -/
abbrev ListenerMap := List (String × List Nat)

/-- event_listeners_.find(type): the vector registered for a type, none when
the type has no entry in the map. -/
def lookupType : ListenerMap → String → Option (List Nat)
  | [], _ => none
  | (k, l) :: rest, t => if k = t then some l else lookupType rest t

/-- GlobalScope::AddEventListener: event_listeners_[type].push_back(listener).
operator[] creates an empty entry when the type is absent; push_back appends
at the end, with no de-duplication. -/
def AddEventListener (m : ListenerMap) (t : String) (f : Nat) : ListenerMap :=
  match m with
  | [] => [(t, [f])]
  | (k, l) :: rest =>
      if k = t then (k, l ++ [f]) :: rest else (k, l) :: AddEventListener rest t f

/-- GlobalScope::RemoveEventListener: an absent type is a no-op; when the
listener argument is empty the whole map entry is erased
(event_listeners_.erase(iter)); otherwise the erase-or-advance loop removes
every occurrence equal to the listener from the vector, and the map entry
itself stays, possibly holding an empty vector. -/
def RemoveEventListener (m : ListenerMap) (t : String) (f : Option Nat) : ListenerMap :=
  match m with
  | [] => []
  | (k, l) :: rest =>
      if k = t then
        match f with
        | none => rest
        | some g => (k, l.filter (fun x => x ≠ g)) :: rest
      else (k, l) :: RemoveEventListener rest t f

/-- GlobalScope::HasEventListeners: false when the type has no map entry,
otherwise whether its vector is non-empty. -/
def HasEventListeners (m : ListenerMap) (t : String) : Bool :=
  match lookupType m t with
  | none => false
  | some l => l.length > 0

/-- The defaultPrevented flag of the event payload after the loop of
GlobalScope::DispatchEvent has run the listeners in order: a listener may
call preventDefault (modelled by the prevents predicate), which can only set
the flag, never clear it. -/
def dispatchFlag (prevents : Nat → Bool) : Bool → List Nat → Bool
  | flag, [] => flag
  | flag, f :: rest => dispatchFlag prevents (flag || prevents f) rest

/-- GlobalScope::DispatchEvent with listeners that mutate no listener list:
the boolean result together with the sequence of listener invocations in
order. When the type has no map entry it returns false having invoked
nothing; otherwise every listener of the entry is invoked in registration
order and the result is Event::DefaultPrevented of the payload after the
loop. -/
def DispatchEvent (m : ListenerMap) (prevents : Nat → Bool) (t : String) (evFlag : Bool) :
    Bool × List Nat :=
  match lookupType m t with
  | none => (false, [])
  | some l => (dispatchFlag prevents evFlag l, l)

/-- The tag that the ScopedExceptionSource in GlobalScope::DispatchEvent
activates around the listener loop. -/
def excTag (t : String) : String := "dispatched event `" ++ t ++ "`"

/-- Modelled from the spec: the capture of a listener exception lives in
runtime_operations.cc / exception_handler.cc, which are not part of the
staged sources; per section 4.5 of the spec an exception thrown by a listener
is appended to the Exception Queue tagged with the active exception source,
and capturing never rethrows.  The loop structure itself is from
GlobalScope::DispatchEvent: Call(isolate, function, arguments) is performed
for every listener unconditionally, so the loop continues past a throwing
listener.  Result: (invocations in order, queue entries appended in order as
(tag, listener)). -/
def dispatchExcLoop (t : String) (throws : Nat → Bool) : List Nat → List Nat × List (String × Nat)
  | [] => ([], [])
  | f :: rest =>
      let r := dispatchExcLoop t throws rest
      (f :: r.1, (if throws f then [(excTag t, f)] else []) ++ r.2)

/-- GlobalScope::DispatchEvent restricted to the exception behaviour of the
listeners: which listeners run and what the Exception Queue receives. -/
def DispatchEventExc (m : ListenerMap) (throws : Nat → Bool) (t : String) :
    List Nat × List (String × Nat) :=
  match lookupType m t with
  | none => ([], [])
  | some l => dispatchExcLoop t throws l

/-- The warning loop of GlobalScope::VerifyNoEventHandlersLeft: one warning
per map entry whose vector is non-empty, naming the event type. -/
def verifyWarnings : ListenerMap → List String
  | [] => []
  | (t, l) :: rest => if l.length = 0 then verifyWarnings rest else t :: verifyWarnings rest

/-- GlobalScope::VerifyNoEventHandlersLeft: counts the warnings; when any
were emitted the listener map is left untouched, otherwise it is cleared.
Result: (the warnings, the listener map afterwards). -/
def VerifyNoEventHandlersLeft (m : ListenerMap) : List String × ListenerMap :=
  if (verifyWarnings m).length > 0 then (verifyWarnings m, m) else (verifyWarnings m, [])

/-- AddEventListenerCallback of global_callbacks.cc: fewer than two arguments,
a non-string first argument or a non-function second argument raise a
TypeError (ThrowException of utilities.h wraps v8::Exception::TypeError) and
return before touching the registry; otherwise GlobalScope::AddEventListener
runs.  Result: (the registry afterwards, the thrown message if any). -/
def AddEventListenerCallback (m : ListenerMap) (args : List JSVal) :
    ListenerMap × Option String :=
  if args.length < 2 then
    (m, some ("unable to execute addEventListener(): 2 arguments required, but only "
        ++ toString args.length ++ " provided."))
  else
    match args[0]?, args[1]? with
    | some (JSVal.vstr t), some (JSVal.vfun f) => (AddEventListener m t f, none)
    | some (JSVal.vstr _), _ =>
        (m, some "unable to execute addEventListener(): expected a function for argument 2.")
    | _, _ =>
        (m, some "unable to execute addEventListener(): expected a string for argument 1.")

/-- DispatchEventCallback of global_callbacks.cc: validates the arguments,
then calls GlobalScope::DispatchEvent — and discards its boolean result; the
callback never calls GetReturnValue().Set, so the script caller always
receives undefined.  Result: (the thrown message if any, the value set as the
v8 return value — none meaning undefined). -/
def DispatchEventCallback (m : ListenerMap) (prevents : Nat → Bool) (args : List JSVal) :
    Option String × Option Bool :=
  if args.length = 0 then
    (some "unable to execute dispatchEvent(): 1 argument required, but only 0 provided.", none)
  else
    match args[0]? with
    | some (JSVal.vstr t) =>
        let _ :=
          if args.length ≥ 2 then
            DispatchEvent m prevents t (payloadFlag (args.getD 1 .vnull))
          else
            DispatchEvent m prevents t (payloadFlag .vnull)
        (none, none)
    | _ => (some "unable to execute dispatchEvent(): expected a string for argument 1.", none)

/-- An occurrence in a listener vector: (occurrence identity, handler). The
same handler may be registered several times; the occurrence identity tells
the registrations apart so that invoked-exactly-once is expressible. -/
abbrev Occ := Nat × Nat

/-- The dispatch loop of GlobalScope::DispatchEvent when a listener may call
RemoveEventListener for the dispatched type from inside its own invocation.
The loop of the source iterates the live vector (no snapshot is taken):
std::vector::erase shifts the elements after the erased position one slot to
the left without reallocating, so the iterator held by the range-for steps
through the mutated vector exactly like an index.  beh gives the effect of
invoking a handler: after handler h runs, occurrence o survives iff
beh h o.2 — RemoveEventListener(type, g) keeps o iff o.2 differs from g, and
RemoveEventListener(type) with no handler keeps nothing.  fuel bounds the
recursion; the loop advances the index every step while the vector never
grows, so fuel = initial length never runs out (dispatchSteps_fuel). -/
def dispatchSteps (beh : Nat → Nat → Bool) : Nat → Nat → List Occ → List Occ
  | 0, _, _ => []
  | fuel + 1, i, l =>
      if h : i < l.length then
        l.get ⟨i, h⟩ ::
          dispatchSteps beh fuel (i + 1) (l.filter (fun o => beh (l.get ⟨i, h⟩).2 o.2))
      else []

/-- GlobalScope::DispatchEvent under listener self-mutation: the sequence of
occurrences actually invoked, starting from vector l. -/
def DispatchEventMut (beh : Nat → Nat → Bool) (l : List Occ) : List Occ :=
  dispatchSteps beh l.length 0 l

/-- The listener behaviour of the C3 counterexample: the listener with
handler 0, while being invoked, calls removeEventListener for the dispatched
type with itself as the handler (removing every occurrence of handler 0);
every other handler removes nothing. -/
def behSelfRemove : Nat → Nat → Bool := fun h x => !(h == 0 && x == 0)

/-- Lexicographic code-point comparison of character lists: the order of
std::less on std::string keys (UTF-8 byte order and code-point order
coincide), written as structural recursion so that it evaluates. -/
def lexLtb : List Char → List Char → Bool
  | [], [] => false
  | [], _ :: _ => true
  | _ :: _, [] => false
  | a :: as, b :: bs =>
      if a.toNat < b.toNat then true
      else if b.toNat < a.toNat then false
      else lexLtb as bs

/-- std::less comparison of two std::string keys. -/
def strLtb (a b : String) : Bool := lexLtb a.toList b.toList

/-- Comparison of Nat keys as a boolean, for the timer queue deadlines. -/
def natLtb (a b : Nat) : Bool := decide (a < b)

/-- Ordered insertion at the upper bound of the equal range: the position at
which std::multimap::insert places a new (key, value) pair — before the first
element whose key is strictly greater, hence after every element with an
equal key.  ltb is the strict key comparison, key extracts the key. -/
def obInsert (ltb : β → β → Bool) (key : α → β) : List α → α → List α
  | [], e => [e]
  | x :: rest, e =>
      if ltb (key e) (key x) then e :: x :: rest else x :: obInsert ltb key rest e

/-- The deferred event queue deferred_events_ of GlobalScope: its declared
type DeferredEventMultimapType (named in GetDeferredEventsCallback, used with
single-argument insert in StoreDeferredEvent) is a std::multimap keyed by the
event type name, carrying the native Arguments bag (an opaque token here).
Iteration of a std::multimap is in key order, insertion order only among
equal keys, so the model keeps the list sorted by key with new entries at the
upper bound of their equal range. -/
abbrev DeferredQueue := List (String × Nat)

/-- GlobalScope::StoreDeferredEvent: deferred_events_.insert({type, args}). -/
def StoreDeferredEvent (q : DeferredQueue) (t : String) (a : Nat) : DeferredQueue :=
  obInsert strLtb Prod.fst q (t, a)

/-- The deferred queue after a whole sequence of StoreDeferredEvent calls,
applied in arrival order to the initially empty queue. -/
def storeAll (evs : List (String × Nat)) : DeferredQueue :=
  evs.foldl (fun q e => StoreDeferredEvent q e.1 e.2) []

/-- The loop of GetDeferredEventsCallback: one (type, event) record per entry
whose type has a registered Event descriptor, in iteration order; an entry
with no descriptor is dropped with a logged warning naming its type, and the
write index is not advanced for it.  Result: (records in the order written,
warned types in order). -/
def buildDeferredRecords (registered : String → Bool) :
    DeferredQueue → List (String × Nat) × List String
  | [] => ([], [])
  | (t, a) :: rest =>
      let r := buildDeferredRecords registered rest
      if registered t then ((t, a) :: r.1, r.2) else (r.1, t :: r.2)

/-- The v8 array built by GetDeferredEventsCallback: Array::New is created
with length deferred_events_.size() before the loop runs, and the loop
assigns its records at consecutive indices 0, 1, … (index++ only on a
successful record), so when entries are dropped the trailing indices of the
array stay unset (holes) and the length is not shortened. -/
structure DeferredArray where
  arrayLength : Nat
  records : List (String × Nat)
  dropped : List String
deriving DecidableEq

/-- GetDeferredEventsCallback: builds the array described above from the
queue in iteration order, then clears the queue (deferred_events_.clear()).
Result: (the array, the queue afterwards). -/
def GetDeferredEvents (registered : String → Bool) (q : DeferredQueue) :
    DeferredArray × DeferredQueue :=
  let r := buildDeferredRecords registered q
  ({ arrayLength := q.length, records := r.1, dropped := r.2 }, [])

/-- Modelled from the spec: timer_queue.h / timer_queue.cc are not part of
the staged sources (only GlobalScope::Wait and WaitCallback are, which
create a Promise and hand it to TimerQueue::Add together with the delay).
Per section 4.3 of the spec an entry is the pair of the Promise and the
absolute deadline now + delay; multiple entries may share a deadline and
insertion order is the tie-break. -/
structure TimerEntry where
  deadline : Nat
  promiseId : Nat
deriving DecidableEq

/-- Modelled from the spec: TimerQueue::Add inserts an entry keyed by the
absolute deadline now + delay; arrival order is kept. -/
def TimerQueueAdd (q : List TimerEntry) (now delay pid : Nat) : List TimerEntry :=
  q ++ [⟨now + delay, pid⟩]

/-- A sequence of wait(d) calls issued at the same instant t0: the i-th call
creates promise i and adds it with deadline t0 + d_i (GlobalScope::Wait). -/
def waitCallsAux (t0 : Nat) : List TimerEntry → Nat → List Nat → List TimerEntry
  | q, _, [] => q
  | q, i, d :: ds => waitCallsAux t0 (TimerQueueAdd q t0 d i) (i + 1) ds

/-- The timer queue after wait(d1), wait(d2), … issued at instant t0 into an
empty queue. -/
def waitCalls (t0 : Nat) (ds : List Nat) : List TimerEntry :=
  waitCallsAux t0 [] 0 ds

/-- Closed form of waitCalls used in proofs: entry i carries deadline
t0 + d_i. -/
def waitSeq (t0 : Nat) : List Nat → Nat → List TimerEntry
  | [], _ => []
  | d :: ds, i => ⟨t0 + d, i⟩ :: waitSeq t0 ds (i + 1)

/-- Modelled from the spec: the per-frame resolution pass of the Timer Queue
(section 4.3): select every entry whose deadline is at most the current time,
process them in ascending deadline order with ties broken by insertion order
(realised as repeated upper-bound insertion, a stable sort), remove each from
the queue and resolve its Promise with no value.  Result: (the entries
resolved, in resolution order; the queue afterwards). -/
def timerResolvePass (q : List TimerEntry) (now : Nat) :
    List TimerEntry × List TimerEntry :=
  ((q.filter (fun e => decide (e.deadline ≤ now))).foldl
      (obInsert natLtb TimerEntry.deadline) [],
   q.filter (fun e => decide (now < e.deadline)))

theorem lookupType_add_self (m : ListenerMap) (t : String) (f : Nat) :
    lookupType (AddEventListener m t f) t = some ((lookupType m t).getD [] ++ [f]) := by
  induction m with
  | nil => simp [AddEventListener, lookupType]
  | cons p rest ih =>
      obtain ⟨k, l⟩ := p
      by_cases hk : k = t
      · subst hk
        simp [AddEventListener, lookupType]
      · simp [AddEventListener, lookupType, hk, ih]

theorem lookupType_eq_none_of_not_mem (m : ListenerMap) (t : String)
    (h : t ∉ m.map Prod.fst) : lookupType m t = none := by
  induction m with
  | nil => rfl
  | cons p rest ih =>
      obtain ⟨k, l⟩ := p
      simp only [List.map_cons, List.mem_cons] at h
      push_neg at h
      have hk : ¬ k = t := fun hk => h.1 hk.symm
      simp [lookupType, hk, ih h.2]

theorem lookupType_remove_none_self (m : ListenerMap) (t : String)
    (hkeys : (m.map Prod.fst).Nodup) :
    lookupType (RemoveEventListener m t none) t = none := by
  induction m with
  | nil => rfl
  | cons p rest ih =>
      obtain ⟨k, l⟩ := p
      simp only [List.map_cons, List.nodup_cons] at hkeys
      by_cases hk : k = t
      · subst hk
        simpa [RemoveEventListener] using lookupType_eq_none_of_not_mem rest k hkeys.1
      · simp [RemoveEventListener, lookupType, hk, ih hkeys.2]

theorem lookupType_remove_some_self (m : ListenerMap) (t : String) (g : Nat) :
    lookupType (RemoveEventListener m t (some g)) t
      = (lookupType m t).map (fun l => l.filter (fun x => x ≠ g)) := by
  induction m with
  | nil => rfl
  | cons p rest ih =>
      obtain ⟨k, l⟩ := p
      by_cases hk : k = t
      · subst hk
        simp [RemoveEventListener, lookupType]
      · simp [RemoveEventListener, lookupType, hk, ih]

theorem lookupType_remove_other (m : ListenerMap) (t t2 : String) (f : Option Nat)
    (ht : t2 ≠ t) :
    lookupType (RemoveEventListener m t f) t2 = lookupType m t2 := by
  induction m with
  | nil => rfl
  | cons p rest ih =>
      obtain ⟨k, l⟩ := p
      by_cases hk : k = t
      · subst hk
        have hk2 : ¬ k = t2 := fun h => ht h.symm
        cases f with
        | none => simp [RemoveEventListener, lookupType, hk2]
        | some g => simp [RemoveEventListener, lookupType, hk2]
      · by_cases hk2 : k = t2
        · subst hk2
          simp [RemoveEventListener, lookupType, hk]
        · simp [RemoveEventListener, lookupType, hk, hk2, ih]

/-- C5: addEventListener appends to the per-type listener list without
de-duplication: after adding listeners [A, B, A] for a type T (A twice),
dispatchEvent(T, ev) invokes A, B, A in exactly that order, each occurrence
exactly once. -/
theorem addEventListener_no_dedup_dispatch_order (m : ListenerMap) (T : String)
    (A B : Nat) (ev : Bool) (prevents : Nat → Bool) (h : lookupType m T = none) :
    (DispatchEvent (AddEventListener (AddEventListener (AddEventListener m T A) T B) T A)
        prevents T ev).2 = [A, B, A] := by
  have h1 := lookupType_add_self m T A
  rw [h] at h1
  have h2 := lookupType_add_self (AddEventListener m T A) T B
  rw [h1] at h2
  have h3 := lookupType_add_self (AddEventListener (AddEventListener m T A) T B) T A
  rw [h2] at h3
  simp only [Option.getD_some, Option.getD_none, List.nil_append] at h1 h2 h3
  simp [DispatchEvent, h3]

theorem addEventListener_no_dedup_dispatch_order_witness :
    lookupType [] "connect" = none ∧
      (DispatchEvent (AddEventListener (AddEventListener (AddEventListener [] "connect" 0)
          "connect" 1) "connect" 0) (fun _ => false) "connect" false).2 = [0, 1, 0] :=
  ⟨rfl, addEventListener_no_dedup_dispatch_order [] "connect" 0 1 false (fun _ => false) rfl⟩

/-- C6: RemoveEventListener(T) with no handler argument removes every
listener registered for type T; RemoveEventListener(T, A) removes every
occurrence of handler A from the vector of T while leaving all other
handlers registered in their original order, and either form leaves every
other type untouched. -/
theorem removeEventListener_semantics (m : ListenerMap) (T T2 : String) (A : Nat)
    (hkeys : (m.map Prod.fst).Nodup) (hT2 : T2 ≠ T) :
    lookupType (RemoveEventListener m T none) T = none ∧
    lookupType (RemoveEventListener m T (some A)) T
      = (lookupType m T).map (fun l => l.filter (fun x => x ≠ A)) ∧
    lookupType (RemoveEventListener m T none) T2 = lookupType m T2 ∧
    lookupType (RemoveEventListener m T (some A)) T2 = lookupType m T2 :=
  ⟨lookupType_remove_none_self m T hkeys,
   lookupType_remove_some_self m T A,
   lookupType_remove_other m T T2 none hT2,
   lookupType_remove_other m T T2 (some A) hT2⟩

theorem removeEventListener_semantics_witness :
    lookupType (RemoveEventListener [("t", [5, 7, 5]), ("u", [9])] "t" none) "t" = none ∧
    lookupType (RemoveEventListener [("t", [5, 7, 5]), ("u", [9])] "t" (some 5)) "t"
      = some [7] ∧
    lookupType (RemoveEventListener [("t", [5, 7, 5]), ("u", [9])] "t" (some 5)) "u"
      = some [9] := by
  have h := removeEventListener_semantics [("t", [5, 7, 5]), ("u", [9])] "t" "u" 5
    (by decide) (by decide)
  refine ⟨h.1, ?_, ?_⟩
  · rw [h.2.1]; decide
  · rw [h.2.2.2]; decide

theorem verifyWarnings_eq_nil_iff (m : ListenerMap) :
    verifyWarnings m = [] ↔ ∀ p ∈ m, p.2 = [] := by
  induction m with
  | nil => simp [verifyWarnings]
  | cons p rest ih =>
      obtain ⟨t, l⟩ := p
      by_cases hl : l.length = 0
      · have : l = [] := List.length_eq_zero.mp hl
        subst this
        simp [verifyWarnings, ih]
      · have : l ≠ [] := fun h => hl (by simp [h])
        simp only [verifyWarnings, if_neg hl]
        constructor
        · intro h; exact absurd h (by simp)
        · intro h; exact absurd (h (t, l) (by simp)) this

theorem verifyWarnings_closed (m : ListenerMap) :
    verifyWarnings m = (m.filter (fun p => p.2 ≠ [])).map Prod.fst := by
  induction m with
  | nil => rfl
  | cons p rest ih =>
      obtain ⟨t, l⟩ := p
      by_cases hl : l.length = 0
      · have : l = [] := List.length_eq_zero.mp hl
        subst this
        simp [verifyWarnings, ih]
      · have hne : l ≠ [] := fun h => hl (by simp [h])
        simp [verifyWarnings, if_neg hl, ih, hne]

theorem verify_fst (m : ListenerMap) :
    (VerifyNoEventHandlersLeft m).1 = verifyWarnings m := by
  unfold VerifyNoEventHandlersLeft
  split <;> rfl

theorem verify_snd_of_nil (m : ListenerMap) (hw : verifyWarnings m = []) :
    (VerifyNoEventHandlersLeft m).2 = [] := by
  simp [VerifyNoEventHandlersLeft, hw]

theorem verify_snd_of_ne (m : ListenerMap) (hw : verifyWarnings m ≠ []) :
    (VerifyNoEventHandlersLeft m).2 = m := by
  have hlen : (verifyWarnings m).length > 0 := List.length_pos.mpr hw
  simp [VerifyNoEventHandlersLeft, if_pos hlen]

/-- C7: VerifyNoEventHandlersLeft clears the listener map if and only if
every type has zero remaining listeners; when any type still has at least
one listener it leaves the entire map unchanged, and the warnings it logs
name exactly the types whose vector is non-empty. -/
theorem verifyNoEventHandlersLeft_spec (m : ListenerMap) :
    ((VerifyNoEventHandlersLeft m).2 = [] ↔ ∀ p ∈ m, p.2 = []) ∧
    ((∃ p ∈ m, p.2 ≠ []) → (VerifyNoEventHandlersLeft m).2 = m) ∧
    (VerifyNoEventHandlersLeft m).1 = (m.filter (fun p => p.2 ≠ [])).map Prod.fst := by
  refine ⟨?_, ?_, (verify_fst m).trans (verifyWarnings_closed m)⟩
  · by_cases hw : verifyWarnings m = []
    · rw [verify_snd_of_nil m hw]
      exact ⟨fun _ => (verifyWarnings_eq_nil_iff m).mp hw, fun _ => rfl⟩
    · rw [verify_snd_of_ne m hw]
      have hne : ¬ ∀ p ∈ m, p.2 = [] := fun h => hw ((verifyWarnings_eq_nil_iff m).mpr h)
      have hm : m ≠ [] := by
        rintro rfl
        exact hw rfl
      exact ⟨fun h => absurd h hm, fun h => absurd h hne⟩
  · rintro ⟨p, hp, hne⟩
    have hw : verifyWarnings m ≠ [] :=
      fun h => hne ((verifyWarnings_eq_nil_iff m).mp h p hp)
    exact verify_snd_of_ne m hw

theorem verifyNoEventHandlersLeft_spec_witness :
    (VerifyNoEventHandlersLeft [("connect", [3]), ("x", [])]).2
      = [("connect", [3]), ("x", [])] :=
  (verifyNoEventHandlersLeft_spec [("connect", [3]), ("x", [])]).2.1
    ⟨("connect", [3]), by decide, by decide⟩

/-- C1 (failing input evaluated): DispatchEventCallback, called from script
as dispatchEvent("noListeners") with zero listeners registered for that
type, throws nothing and sets no return value — the script caller receives
undefined — even though the underlying GlobalScope::DispatchEvent computes
false, and the callback declares itself as boolean dispatchEvent(...). -/
theorem dispatchEventCallback_discards_result :
    DispatchEventCallback [] (fun _ => false) [JSVal.vstr "noListeners"] = (none, none) ∧
    (DispatchEvent [] (fun _ => false) "noListeners" false).1 = false := by
  decide

theorem dispatchExcLoop_closed (t : String) (throws : Nat → Bool) (l : List Nat) :
    dispatchExcLoop t throws l = (l, (l.filter throws).map (fun f => (excTag t, f))) := by
  induction l with
  | nil => rfl
  | cons f rest ih =>
      by_cases h : throws f <;> simp [dispatchExcLoop, ih, List.filter_cons, h]

/-- C8: during dispatchEvent an exception thrown by any listener is captured
by the Exception Queue tagged with the dispatched event type, and every
subsequent listener in the list is still invoked: the invocation sequence is
the whole registered list regardless of which listeners throw, and the queue
receives one record per throwing listener, each tagged with the event type. -/
theorem dispatchEvent_exceptions_do_not_abort (m : ListenerMap) (throws : Nat → Bool)
    (t : String) (l : List Nat) (h : lookupType m t = some l) :
    (DispatchEventExc m throws t).1 = l ∧
    (DispatchEventExc m throws t).2 = (l.filter throws).map (fun f => (excTag t, f)) := by
  simp [DispatchEventExc, h, dispatchExcLoop_closed]

theorem dispatchEvent_exceptions_do_not_abort_witness :
    (DispatchEventExc [("connect", [0, 1, 2])] (fun f => f == 1) "connect").1 = [0, 1, 2] ∧
    (DispatchEventExc [("connect", [0, 1, 2])] (fun f => f == 1) "connect").2
      = [("dispatched event `connect`", 1)] := by
  have h := dispatchEvent_exceptions_do_not_abort [("connect", [0, 1, 2])]
    (fun f => f == 1) "connect" [0, 1, 2] (by decide)
  exact ⟨h.1, by rw [h.2]; decide⟩

/-- C9: a native-bridge call of addEventListener with wrong arity or a
wrongly typed argument (fewer than two arguments, a non-string type, or a
non-function listener) throws a TypeError synchronously and performs no
state change: the listener registry is returned unchanged. -/
theorem addEventListenerCallback_rejects (m : ListenerMap) (args : List JSVal)
    (h : args.length < 2 ∨ args[0]?.map JSVal.isStr ≠ some true
        ∨ args[1]?.map JSVal.isFun ≠ some true) :
    (AddEventListenerCallback m args).1 = m ∧
    (AddEventListenerCallback m args).2.isSome := by
  match args with
  | [] => simp [AddEventListenerCallback]
  | [a] => simp [AddEventListenerCallback]
  | a :: b :: rest =>
      have hlen : ¬ (a :: b :: rest).length < 2 := by simp
      have hlen2 : ¬ rest.length + 1 + 1 < 2 := by omega
      cases a with
      | vstr s =>
          cases b with
          | vfun f =>
              exfalso
              rcases h with h | h | h
              · exact hlen h
              · simp [JSVal.isStr] at h
              · simp [JSVal.isFun] at h
          | vstr s2 => simp [AddEventListenerCallback, hlen2]
          | vnum n => simp [AddEventListenerCallback, hlen2]
          | vobj o => simp [AddEventListenerCallback, hlen2]
          | vnull => simp [AddEventListenerCallback, hlen2]
      | vfun f => simp [AddEventListenerCallback, hlen2]
      | vnum n => simp [AddEventListenerCallback, hlen2]
      | vobj o => simp [AddEventListenerCallback, hlen2]
      | vnull => simp [AddEventListenerCallback, hlen2]

theorem addEventListenerCallback_rejects_witness :
    ((AddEventListenerCallback [("t", [4])] [JSVal.vstr "t", JSVal.vnum 3]).1
      = [("t", [4])] ∧
    (AddEventListenerCallback [("t", [4])] [JSVal.vstr "t", JSVal.vnum 3]).2.isSome) ∧
    ((AddEventListenerCallback [("t", [4])] [JSVal.vstr "t"]).1 = [("t", [4])] ∧
    (AddEventListenerCallback [("t", [4])] [JSVal.vstr "t"]).2.isSome) :=
  ⟨addEventListenerCallback_rejects [("t", [4])] [JSVal.vstr "t", JSVal.vnum 3]
      (by decide),
   addEventListenerCallback_rejects [("t", [4])] [JSVal.vstr "t"] (by decide)⟩

theorem mem_of_mem_drop_succ {α : Type*} (l : List α) (k : Nat) (x : α)
    (h : x ∈ l.drop (k + 1)) : x ∈ l.drop k := by
  have heq : l.drop (k + 1) = (l.drop k).drop 1 := (List.drop_drop 1 k l).symm
  rw [heq] at h
  exact List.drop_subset 1 (l.drop k) h

theorem mem_drop_filter {α : Type*} (p : α → Bool) :
    ∀ (k : Nat) (l : List α) (x : α), x ∈ (l.filter p).drop k → x ∈ l.drop k := by
  intro k l
  induction l generalizing k with
  | nil =>
      intro x hx
      simp at hx
  | cons a t ih =>
      intro x hx
      cases k with
      | zero =>
          simp only [List.drop_zero] at hx ⊢
          exact List.mem_of_mem_filter hx
      | succ j =>
          rw [List.filter_cons] at hx
          by_cases hpa : p a = true
          · rw [if_pos hpa, List.drop_succ_cons] at hx
            rw [List.drop_succ_cons]
            exact ih j x hx
          · rw [if_neg hpa] at hx
            have hx2 := ih (j + 1) x hx
            rw [List.drop_succ_cons]
            exact mem_of_mem_drop_succ t j x hx2

theorem dispatchSteps_subset_drop (beh : Nat → Nat → Bool) :
    ∀ (fuel i : Nat) (l : List Occ) (x : Occ),
      x ∈ dispatchSteps beh fuel i l → x ∈ l.drop i := by
  intro fuel
  induction fuel with
  | zero =>
      intro i l x hx
      simp [dispatchSteps] at hx
  | succ n ih =>
      intro i l x hx
      simp only [dispatchSteps] at hx
      by_cases h : i < l.length
      · rw [dif_pos h] at hx
        rcases List.mem_cons.mp hx with rfl | hx2
        · have hgoal : l.drop i = l.get ⟨i, h⟩ :: l.drop (i + 1) := by
            rw [List.drop_eq_getElem_cons h, List.get_eq_getElem]
          rw [hgoal]
          exact List.mem_cons_self _ _
        · have hx3 := ih (i + 1) _ x hx2
          have hx4 := mem_drop_filter _ (i + 1) l x hx3
          exact mem_of_mem_drop_succ l i x hx4
      · rw [dif_neg h] at hx
        simp at hx

theorem dispatchSteps_nodup (beh : Nat → Nat → Bool) :
    ∀ (fuel i : Nat) (l : List Occ), l.Nodup → (dispatchSteps beh fuel i l).Nodup := by
  intro fuel
  induction fuel with
  | zero =>
      intro i l _
      simp [dispatchSteps]
  | succ n ih =>
      intro i l hnd
      simp only [dispatchSteps]
      by_cases h : i < l.length
      · rw [dif_pos h]
        refine List.nodup_cons.mpr ⟨?_, ih (i + 1) _ (List.Nodup.filter _ hnd)⟩
        intro hmem
        have h1 := dispatchSteps_subset_drop beh n (i + 1) _ _ hmem
        have h2 := mem_drop_filter _ (i + 1) l _ h1
        have hnd2 : (l.drop i).Nodup := List.Nodup.sublist (List.drop_sublist i l) hnd
        rw [List.drop_eq_getElem_cons h] at hnd2
        have hhead := (List.nodup_cons.mp hnd2).1
        exact hhead (by simpa [List.get_eq_getElem] using h2)
      · rw [dif_neg h]
        exact List.nodup_nil

theorem dispatchSteps_total (beh : Nat → Nat → Bool) (hb : ∀ a b, beh a b = true) :
    ∀ (fuel i : Nat) (l : List Occ),
      l.length - i ≤ fuel → dispatchSteps beh fuel i l = l.drop i := by
  intro fuel
  induction fuel with
  | zero =>
      intro i l hle
      have hli : l.length ≤ i := by omega
      simp [dispatchSteps, List.drop_eq_nil_of_le hli]
  | succ n ih =>
      intro i l hle
      simp only [dispatchSteps]
      by_cases h : i < l.length
      · rw [dif_pos h]
        have hf : l.filter (fun o => beh (l.get ⟨i, h⟩).2 o.2) = l :=
          List.filter_eq_self.mpr (fun a _ => hb _ _)
        rw [hf, ih (i + 1) l (by omega), List.drop_eq_getElem_cons h]
        simp [List.get_eq_getElem]
      · rw [dif_neg h]
        have hli : l.length ≤ i := by omega
        rw [List.drop_eq_nil_of_le hli]

theorem dispatchSteps_fuel (beh : Nat → Nat → Bool) :
    ∀ (f1 f2 i : Nat) (l : List Occ), l.length - i ≤ f1 → l.length - i ≤ f2 →
      dispatchSteps beh f1 i l = dispatchSteps beh f2 i l := by
  intro f1
  induction f1 with
  | zero =>
      intro f2 i l h1 h2
      have hni : ¬ i < l.length := by omega
      cases f2 with
      | zero => rfl
      | succ m => simp [dispatchSteps, hni]
  | succ n ih =>
      intro f2 i l h1 h2
      cases f2 with
      | zero =>
          have hni : ¬ i < l.length := by omega
          simp [dispatchSteps, hni]
      | succ m =>
          simp only [dispatchSteps]
          by_cases h : i < l.length
          · rw [dif_pos h, dif_pos h]
            have hlf := List.length_filter_le (fun o => beh (l.get ⟨i, h⟩).2 o.2) l
            rw [ih m (i + 1) _ (by omega) (by omega)]
          · rw [dif_neg h, dif_neg h]

/-- C3 amended: iterating the live vector, no listener occurrence is ever
invoked twice; and when no invoked listener removes listeners for the
dispatched type, every occurrence present at dispatch start is invoked
exactly once (the invocation sequence is the whole starting list).  What the
claim asserted beyond this fails: a removal at or before the current
position shifts the vector under the loop, so a not-yet-invoked occurrence
can be skipped (dispatchEventMut_counterexample). -/
theorem dispatchEventMut_amended (beh : Nat → Nat → Bool) (l : List Occ)
    (hnd : l.Nodup) :
    (DispatchEventMut beh l).Nodup ∧
    ((∀ a b, beh a b = true) → DispatchEventMut beh l = l) := by
  constructor
  · exact dispatchSteps_nodup beh l.length 0 l hnd
  · intro hb
    have h := dispatchSteps_total beh hb l.length 0 l (by omega)
    simpa [DispatchEventMut, List.drop_zero] using h

theorem dispatchEventMut_amended_witness :
    ([((0 : Nat), (0 : Nat)), (1, 1)] : List Occ).Nodup ∧
    (DispatchEventMut (fun _ _ => true) [(0, 0), (1, 1)]).Nodup :=
  ⟨by decide, (dispatchEventMut_amended (fun _ _ => true) [(0, 0), (1, 1)] (by decide)).1⟩

/-- C3 counterexample: listeners [(10, handler 0), (11, handler 1)] are
registered for the dispatched type and handler 0, during its own invocation,
removes itself (removeEventListener for the dispatched type with handler 0).
Occurrence (11, 1) was in the list at dispatch start and was never invoked:
the erase shifts it into the slot the iterator has already passed. -/
theorem dispatchEventMut_counterexample :
    ((11, 1) : Occ) ∈ ([(10, 0), (11, 1)] : List Occ) ∧
    DispatchEventMut behSelfRemove [(10, 0), (11, 1)] = [(10, 0)] ∧
    ((11, 1) : Occ) ∉ DispatchEventMut behSelfRemove [(10, 0), (11, 1)] := by
  decide

theorem lexLtb_irrefl : ∀ a : List Char, lexLtb a a = false := by
  intro a
  induction a with
  | nil => rfl
  | cons x xs ih => simp [lexLtb, ih]

theorem lexLtb_trans : ∀ (a b c : List Char),
    lexLtb a b = true → lexLtb b c = true → lexLtb a c = true := by
  intro a
  induction a with
  | nil =>
      intro b c hab hbc
      cases b with
      | nil => simp [lexLtb] at hab
      | cons y ys =>
          cases c with
          | nil => simp [lexLtb] at hbc
          | cons z zs => simp [lexLtb]
  | cons x xs ih =>
      intro b c hab hbc
      cases b with
      | nil => simp [lexLtb] at hab
      | cons y ys =>
          cases c with
          | nil => simp [lexLtb] at hbc
          | cons z zs =>
              simp only [lexLtb] at hab hbc ⊢
              by_cases h1 : x.toNat < y.toNat
              · by_cases h2 : y.toNat < z.toNat
                · rw [if_pos (show x.toNat < z.toNat by omega)]
                · rw [if_neg h2] at hbc
                  by_cases h3 : z.toNat < y.toNat
                  · rw [if_pos h3] at hbc
                    exact absurd hbc (by simp)
                  · rw [if_pos (show x.toNat < z.toNat by omega)]
              · rw [if_neg h1] at hab
                by_cases h1b : y.toNat < x.toNat
                · rw [if_pos h1b] at hab
                  exact absurd hab (by simp)
                · rw [if_neg h1b] at hab
                  by_cases h2 : y.toNat < z.toNat
                  · rw [if_pos (show x.toNat < z.toNat by omega)]
                  · rw [if_neg h2] at hbc
                    by_cases h3 : z.toNat < y.toNat
                    · rw [if_pos h3] at hbc
                      exact absurd hbc (by simp)
                    · rw [if_neg h3] at hbc
                      rw [if_neg (show ¬ x.toNat < z.toNat by omega),
                        if_neg (show ¬ z.toNat < x.toNat by omega)]
                      exact ih ys zs hab hbc

theorem strLtb_irrefl (a : String) : strLtb a a = false := lexLtb_irrefl a.toList

theorem strLtb_trans (a b c : String) (hab : strLtb a b = true)
    (hbc : strLtb b c = true) : strLtb a c = true :=
  lexLtb_trans a.toList b.toList c.toList hab hbc

theorem natLtb_irrefl (a : Nat) : natLtb a a = false := by simp [natLtb]

theorem natLtb_trans (a b c : Nat) (hab : natLtb a b = true)
    (hbc : natLtb b c = true) : natLtb a c = true := by
  simp [natLtb] at hab hbc ⊢
  omega

theorem obInsert_perm {α β : Type*} (ltb : β → β → Bool) (key : α → β) :
    ∀ (l : List α) (e : α), (obInsert ltb key l e).Perm (e :: l) := by
  intro l e
  induction l with
  | nil => exact List.Perm.refl _
  | cons x rest ih =>
      simp only [obInsert]
      by_cases h : ltb (key e) (key x) = true
      · rw [if_pos h]
      · rw [if_neg h]
        exact (List.Perm.cons x ih).trans (List.Perm.swap e x rest)

theorem obInsert_pairwise {α β : Type*} (ltb : β → β → Bool) (key : α → β)
    (htr : ∀ a b c, ltb a b = true → ltb b c = true → ltb a c = true)
    (hirr : ∀ a, ltb a a = false) :
    ∀ (l : List α) (e : α),
      l.Pairwise (fun a b => ltb (key b) (key a) = false) →
      (obInsert ltb key l e).Pairwise (fun a b => ltb (key b) (key a) = false) := by
  intro l e
  induction l with
  | nil =>
      intro _
      simp [obInsert]
  | cons x rest ih =>
      intro hp
      rcases List.pairwise_cons.mp hp with ⟨hx, hrest⟩
      simp only [obInsert]
      by_cases h : ltb (key e) (key x) = true
      · rw [if_pos h]
        refine List.pairwise_cons.mpr ⟨?_, hp⟩
        intro y hy
        rcases List.mem_cons.mp hy with rfl | hy2
        · cases hye : ltb (key y) (key e) with
          | false => rfl
          | true =>
              have hcontra := htr (key y) (key e) (key y) hye h
              rw [hirr (key y)] at hcontra
              simp at hcontra
        · cases hye : ltb (key y) (key e) with
          | false => rfl
          | true =>
              have hcontra := htr (key y) (key e) (key x) hye h
              rw [hx y hy2] at hcontra
              simp at hcontra
      · rw [if_neg h]
        refine List.pairwise_cons.mpr ⟨?_, ih hrest⟩
        intro y hy
        rcases List.mem_cons.mp ((obInsert_perm ltb key rest e).mem_iff.mp hy) with rfl | hy3
        · exact Bool.eq_false_iff.mpr h
        · exact hx y hy3

theorem obInsert_filter {α β : Type*} [DecidableEq β] (ltb : β → β → Bool)
    (key : α → β) (hirr : ∀ a, ltb a a = false) (b : β) :
    ∀ (l : List α) (e : α),
      l.Pairwise (fun a2 b2 => ltb (key b2) (key a2) = false) →
      (obInsert ltb key l e).filter (fun x => decide (key x = b))
        = l.filter (fun x => decide (key x = b)) ++ (if key e = b then [e] else []) := by
  intro l e
  induction l with
  | nil =>
      intro _
      by_cases hb : key e = b <;> simp [obInsert, List.filter_cons, hb]
  | cons x rest ih =>
      intro hp
      rcases List.pairwise_cons.mp hp with ⟨hx, hrest⟩
      simp only [obInsert]
      by_cases h : ltb (key e) (key x) = true
      · rw [if_pos h]
        by_cases hb : key e = b
        · have hnil : (x :: rest).filter (fun y => decide (key y = b)) = [] := by
            rw [List.filter_eq_nil_iff]
            intro y hy
            simp only [decide_eq_true_eq]
            intro hyb
            rcases List.mem_cons.mp hy with rfl | hy2
            · rw [hyb, ← hb] at h
              rw [hirr (key e)] at h
              exact absurd h (by simp)
            · have hfalse := hx y hy2
              rw [hyb, ← hb] at hfalse
              rw [hfalse] at h
              exact absurd h (by simp)
          simp [List.filter_cons, hb, hnil]
        · simp [List.filter_cons, hb]
      · rw [if_neg h]
        rw [List.filter_cons, List.filter_cons, ih hrest]
        by_cases hxb : key x = b <;> simp [hxb]

theorem obFold_perm {α β : Type*} (ltb : β → β → Bool) (key : α → β) :
    ∀ (evs init : List α), (evs.foldl (obInsert ltb key) init).Perm (init ++ evs) := by
  intro evs
  induction evs with
  | nil =>
      intro init
      simp
  | cons e evs ih =>
      intro init
      have h1 := ih (obInsert ltb key init e)
      have h2 : (obInsert ltb key init e ++ evs).Perm ((e :: init) ++ evs) :=
        List.Perm.append_right evs (obInsert_perm ltb key init e)
      have h3 : ((e :: init) ++ evs).Perm (init ++ e :: evs) := by
        simpa using List.perm_middle.symm
      rw [List.foldl_cons]
      exact h1.trans (h2.trans h3)

theorem obFold_pairwise {α β : Type*} (ltb : β → β → Bool) (key : α → β)
    (htr : ∀ a b c, ltb a b = true → ltb b c = true → ltb a c = true)
    (hirr : ∀ a, ltb a a = false) :
    ∀ (evs init : List α),
      init.Pairwise (fun a b => ltb (key b) (key a) = false) →
      (evs.foldl (obInsert ltb key) init).Pairwise
        (fun a b => ltb (key b) (key a) = false) := by
  intro evs
  induction evs with
  | nil =>
      intro init h
      simpa using h
  | cons e evs ih =>
      intro init h
      exact ih (obInsert ltb key init e) (obInsert_pairwise ltb key htr hirr init e h)

theorem obFold_filter {α β : Type*} [DecidableEq β] (ltb : β → β → Bool)
    (key : α → β)
    (htr : ∀ a b c, ltb a b = true → ltb b c = true → ltb a c = true)
    (hirr : ∀ a, ltb a a = false) (b : β) :
    ∀ (evs init : List α),
      init.Pairwise (fun a2 b2 => ltb (key b2) (key a2) = false) →
      (evs.foldl (obInsert ltb key) init).filter (fun x => decide (key x = b))
        = init.filter (fun x => decide (key x = b))
          ++ evs.filter (fun x => decide (key x = b)) := by
  intro evs
  induction evs with
  | nil =>
      intro init _
      simp
  | cons e evs ih =>
      intro init h
      have h1 := ih (obInsert ltb key init e) (obInsert_pairwise ltb key htr hirr init e h)
      have h2 := obInsert_filter ltb key hirr b init e h
      rw [List.foldl_cons, h1, h2, List.filter_cons]
      by_cases hb : key e = b
      · simp [hb]
      · simp [hb]

theorem storeAll_eq_obFold (evs : List (String × Nat)) :
    storeAll evs = evs.foldl (obInsert strLtb Prod.fst) [] := rfl

theorem buildDeferredRecords_closed (reg : String → Bool) (q : DeferredQueue) :
    buildDeferredRecords reg q =
      (q.filter (fun e => reg e.1), (q.filter (fun e => !reg e.1)).map Prod.fst) := by
  induction q with
  | nil => rfl
  | cons e rest ih =>
      obtain ⟨t, a⟩ := e
      by_cases h : reg t = true <;>
        simp [buildDeferredRecords, List.filter_cons, h, ih]

/-- C2 amended: every entry stored by StoreDeferredEvent whose type has a
registered descriptor is yielded by getDeferredEvents exactly once as a
(type, event) record, and the deferred queue is empty immediately after the
call; but the record order is the multimap iteration order — records come
out sorted by event type name, entries of the same type keeping their
original relative insertion order — not the global insertion order of the
whole stored sequence. -/
theorem getDeferredEvents_drain (evs : List (String × Nat)) (reg : String → Bool)
    (hreg : ∀ e ∈ evs, reg e.1 = true) :
    (GetDeferredEvents reg (storeAll evs)).2 = [] ∧
    ((GetDeferredEvents reg (storeAll evs)).1.records).Perm evs ∧
    ((GetDeferredEvents reg (storeAll evs)).1.records).Pairwise
      (fun a b => strLtb b.1 a.1 = false) ∧
    ∀ t : String, (GetDeferredEvents reg (storeAll evs)).1.records.filter
        (fun e => decide (e.1 = t))
      = evs.filter (fun e => decide (e.1 = t)) := by
  have hq : (storeAll evs).Perm evs := by
    rw [storeAll_eq_obFold]
    simpa using obFold_perm strLtb Prod.fst evs []
  have hpw : (storeAll evs).Pairwise (fun a b => strLtb b.1 a.1 = false) := by
    rw [storeAll_eq_obFold]
    exact obFold_pairwise strLtb Prod.fst strLtb_trans strLtb_irrefl evs []
      List.Pairwise.nil
  have hrecords : (GetDeferredEvents reg (storeAll evs)).1.records = storeAll evs := by
    show (buildDeferredRecords reg (storeAll evs)).1 = storeAll evs
    rw [buildDeferredRecords_closed]
    exact List.filter_eq_self.mpr (fun e he => hreg e (hq.mem_iff.mp he))
  refine ⟨rfl, ?_, ?_, ?_⟩
  · rw [hrecords]
    exact hq
  · rw [hrecords]
    exact hpw
  · intro t
    rw [hrecords, storeAll_eq_obFold]
    simpa using obFold_filter strLtb Prod.fst strLtb_trans strLtb_irrefl t evs []
      List.Pairwise.nil

theorem getDeferredEvents_drain_witness :
    (GetDeferredEvents (fun _ => true) (storeAll [("b", 0), ("a", 1)])).2 = [] ∧
    ((GetDeferredEvents (fun _ => true) (storeAll [("b", 0), ("a", 1)])).1.records).Perm
      [("b", 0), ("a", 1)] := by
  have h := getDeferredEvents_drain [("b", 0), ("a", 1)] (fun _ => true) (by decide)
  exact ⟨h.1, h.2.1⟩

/-- C2 counterexample: native code stores the deferred events ("b", payload
0) and then ("a", payload 1); the drain yields the records in multimap key
order, [("a", 1), ("b", 0)], not in the original whole-sequence insertion
order [("b", 0), ("a", 1)] that the claim requires. -/
theorem getDeferredEvents_not_insertion_order :
    (GetDeferredEvents (fun _ => true)
        (StoreDeferredEvent (StoreDeferredEvent [] "b" 0) "a" 1)).1.records
      = [("a", 1), ("b", 0)] ∧
    (GetDeferredEvents (fun _ => true)
        (StoreDeferredEvent (StoreDeferredEvent [] "b" 0) "a" 1)).1.records
      ≠ [("b", 0), ("a", 1)] := by
  decide

/-- C10: the array returned by getDeferredEvents is created with length equal
to the total number of stored deferred entries, including entries whose type
has no registered Event descriptor; one record is written per registered
entry at consecutive indices from 0, so when entries are dropped the
trailing arrayLength - records.length indices stay unset (holes) and the
array is not shortened. -/
theorem getDeferredEvents_array_holes (reg : String → Bool) (q : DeferredQueue) :
    (GetDeferredEvents reg q).1.arrayLength = q.length ∧
    (GetDeferredEvents reg q).1.records.length
      = (q.filter (fun e => reg e.1)).length ∧
    (GetDeferredEvents reg q).1.records.length
      + (GetDeferredEvents reg q).1.dropped.length = q.length := by
  refine ⟨rfl, ?_, ?_⟩
  · show (buildDeferredRecords reg q).1.length = _
    rw [buildDeferredRecords_closed]
  · show (buildDeferredRecords reg q).1.length + (buildDeferredRecords reg q).2.length = _
    rw [buildDeferredRecords_closed]
    simp only [List.length_map]
    exact (List.length_eq_length_filter_add (fun (e : String × Nat) => reg e.1)).symm

theorem waitCallsAux_eq (t0 : Nat) :
    ∀ (ds : List Nat) (q : List TimerEntry) (i : Nat),
      waitCallsAux t0 q i ds = q ++ waitSeq t0 ds i := by
  intro ds
  induction ds with
  | nil =>
      intro q i
      simp [waitCallsAux, waitSeq]
  | cons d ds ih =>
      intro q i
      simp [waitCallsAux, waitSeq, TimerQueueAdd, ih]

theorem mem_waitSeq (t0 : Nat) :
    ∀ (ds : List Nat) (i : Nat) (e : TimerEntry),
      e ∈ waitSeq t0 ds i → ∃ d ∈ ds, e.deadline = t0 + d := by
  intro ds
  induction ds with
  | nil =>
      intro i e h
      simp [waitSeq] at h
  | cons d ds ih =>
      intro i e h
      simp only [waitSeq, List.mem_cons] at h
      rcases h with rfl | h2
      · exact ⟨d, by simp, rfl⟩
      · rcases ih (i + 1) e h2 with ⟨d2, hd2, he⟩
        exact ⟨d2, by simp [hd2], he⟩

/-- C4: for wait(d1), wait(d2), … issued at the same instant t0, once the
frame time has reached every deadline a single resolution pass resolves all
of them: the queue is left empty, every entry is resolved exactly once, the
resolution order is ascending in deadline (hence ascending in d_i), and
entries with equal deadlines resolve in issue order — the per-deadline
subsequence of the resolution order equals the per-deadline subsequence of
the issue order. -/
theorem wait_resolution_order (t0 now : Nat) (ds : List Nat)
    (h : ∀ d ∈ ds, t0 + d ≤ now) :
    (timerResolvePass (waitCalls t0 ds) now).2 = [] ∧
    ((timerResolvePass (waitCalls t0 ds) now).1).Perm (waitCalls t0 ds) ∧
    ((timerResolvePass (waitCalls t0 ds) now).1).Pairwise
      (fun a b => a.deadline ≤ b.deadline) ∧
    ∀ v : Nat, (timerResolvePass (waitCalls t0 ds) now).1.filter
        (fun e => decide (e.deadline = v))
      = (waitCalls t0 ds).filter (fun e => decide (e.deadline = v)) := by
  have hall : ∀ e ∈ waitCalls t0 ds, e.deadline ≤ now := by
    intro e he
    rw [waitCalls, waitCallsAux_eq] at he
    simp only [List.nil_append] at he
    rcases mem_waitSeq t0 ds 0 e he with ⟨d, hd, hde⟩
    rw [hde]
    exact h d hd
  have hdue : (waitCalls t0 ds).filter (fun e => decide (e.deadline ≤ now))
      = waitCalls t0 ds :=
    List.filter_eq_self.mpr (fun e he => by simpa using hall e he)
  have hrem : (waitCalls t0 ds).filter (fun e => decide (now < e.deadline)) = [] :=
    List.filter_eq_nil_iff.mpr (fun e he => by
      have := hall e he
      simp
      omega)
  have hfst : (timerResolvePass (waitCalls t0 ds) now).1
      = (waitCalls t0 ds).foldl (obInsert natLtb TimerEntry.deadline) [] := by
    show ((waitCalls t0 ds).filter (fun e => decide (e.deadline ≤ now))).foldl
        (obInsert natLtb TimerEntry.deadline) [] = _
    rw [hdue]
  refine ⟨hrem, ?_, ?_, ?_⟩
  · rw [hfst]
    simpa using obFold_perm natLtb TimerEntry.deadline (waitCalls t0 ds) []
  · rw [hfst]
    have hpw := obFold_pairwise natLtb TimerEntry.deadline natLtb_trans natLtb_irrefl
      (waitCalls t0 ds) [] List.Pairwise.nil
    refine hpw.imp ?_
    intro a b hr
    simp [natLtb] at hr
    omega
  · intro v
    rw [hfst]
    simpa using obFold_filter natLtb TimerEntry.deadline natLtb_trans natLtb_irrefl v
      (waitCalls t0 ds) [] List.Pairwise.nil

theorem wait_resolution_order_witness :
    (timerResolvePass (waitCalls 0 [5, 3, 5]) 10).2 = [] ∧
    (timerResolvePass (waitCalls 0 [5, 3, 5]) 10).1
      = [⟨3, 1⟩, ⟨5, 0⟩, ⟨5, 2⟩] := by
  have h := wait_resolution_order 0 10 [5, 3, 5] (by decide)
  exact ⟨h.1, by decide⟩

end Playground
